import Mathlib

/-
Verification of the qton quantum-circuit simulator (qton/circuit.py and
qton/gate.py) against its natural-language specification.

The state of a circuit is a list of complex amplitudes of length 2^n.
Basis-index convention (load-bearing, from the source docstrings): index i,
written as an n-character binary string, has its leftmost character at
string position 0 corresponding to qubit 0; hence string position q holds
bit (n - 1 - q) of i.
-/

set_option maxHeartbeats 1000000

namespace Qton

open Complex

/-- Little-endian value of a bit list (helper for reasoning about the
big-endian string encoding used by the source). -/
def valLE : List Bool → Nat
  | [] => 0
  | b :: t => (if b then 1 else 0) + 2 * valLE t

/-- The `n`-character binary string of `i` produced by `format(i, '0%db' % n)`
in `Circuit.swap`, as a list of booleans: position `q` (leftmost is `q = 0`)
holds bit `n - 1 - q` of `i`.  Faithful for `i < 2^n`, the only indices the
source ever formats. -/
def bitStr (n i : Nat) : List Bool :=
  List.ofFn (fun q : Fin n => i.testBit (n - 1 - q.val))

/-- Big-endian value of a bit list: the translation of
`int(''.join(bit_list), 2)` in `Circuit.swap`. -/
def bitsToNat (bs : List Bool) : Nat :=
  bs.foldl (fun acc b => 2 * acc + (if b then 1 else 0)) 0

/-- The in-place exchange of the characters at string positions `q1` and `q2`
performed on `bit_list` in `Circuit.swap` (`tmp = bit_list[q1];
bit_list[q1] = bit_list[q2]; bit_list[q2] = tmp`). -/
def swapBits (q1 q2 : Nat) (bs : List Bool) : List Bool :=
  (bs.set q1 (bs.getD q2 false)).set q2 (bs.getD q1 false)

/-- The index `j = int(''.join(bit_list), 2)` computed in the body of
`Circuit.swap` for basis index `i`: the characters at positions `q1`, `q2`
of the binary string of `i` are exchanged and the string is read back. -/
def swapIdx (n q1 q2 i : Nat) : Nat :=
  bitsToNat (swapBits q1 q2 (bitStr n i))

/-- The scan of `Circuit.swap` (the part after the early `q1 == q2` return):
for every `i` in `range(2**n)`, if the characters at positions `q1`, `q2` of
`i`'s bit string differ, the new amplitude at `i` is the snapshot (`old_state`)
amplitude at the exchanged index; otherwise entry `i` is left as it was. -/
def swapCore (n q1 q2 : Nat) (s : List ℂ) : List ℂ :=
  (List.range (2 ^ n)).map (fun i =>
    let bs := bitStr n i
    if bs.getD q1 false = bs.getD q2 false then s.getD i 0
    else s.getD (swapIdx n q1 q2 i) 0)

/-- `Circuit.swap(q1, q2)` acting on the state list: returns immediately when
`q1 == q2`, otherwise performs the snapshot-based scan. -/
def swapState (n q1 q2 : Nat) (s : List ℂ) : List ℂ :=
  if q1 = q2 then s else swapCore n q1 q2 s

/-- Python sequence indexing with a possibly negative index, as applied to the
`n`-character bit string inside `Circuit.swap`: `0 ≤ k < len` reads position
`k`; `-len ≤ k < 0` reads position `len + k`; anything else raises
`IndexError`. -/
def pyIdx (len : Nat) (k : Int) : Option Nat :=
  if 0 ≤ k ∧ k < (len : Int) then some k.toNat
  else if -(len : Int) ≤ k ∧ k < 0 then some (k + (len : Int)).toNat
  else none

/-- `Circuit.swap` with its qubit arguments kept as Python integers: the early
`q1 == q2` return happens before any string indexing, and otherwise both
string positions are resolved by Python indexing (the bit strings scanned all
have length `max 1 n`); an out-of-range position raises `IndexError` before
any amplitude is written. -/
def swapPy (n : Nat) (q1 q2 : Int) (s : List ℂ) : Option (List ℂ) :=
  if q1 = q2 then some s
  else
    match pyIdx (max 1 n) q1, pyIdx (max 1 n) q2 with
    | some p1, some p2 => some (swapCore n p1 p2 s)
    | _, _ => none

/-- The loop `for idx in range(0, 2**n, 2): state[idx:idx+2] =
matmul(op, state[idx:idx+2])` of `Circuit._single_gate`: left-multiplies the
2x2 matrix onto each contiguous pair.  Agrees with the source for every list
of even length (the state always has length `2^n`). -/
def mulBlocks2 (op : Matrix (Fin 2) (Fin 2) ℂ) : List ℂ → List ℂ
  | a :: b :: rest =>
      (op 0 0 * a + op 0 1 * b) :: (op 1 0 * a + op 1 1 * b) ::
      mulBlocks2 op rest
  | s => s

/-- The loop `for idx in range(0, 2**n, 4): state[idx:idx+4] =
matmul(op, state[idx:idx+4])` of `Circuit._double_gate`: left-multiplies the
4x4 matrix onto each contiguous block of four.  Agrees with the source for
every list whose length is a multiple of four (the state always has length
`2^n` with `n ≥ 2` when this runs). -/
def mulBlocks4 (op : Matrix (Fin 4) (Fin 4) ℂ) : List ℂ → List ℂ
  | a :: b :: c :: d :: rest =>
      (op 0 0 * a + op 0 1 * b + op 0 2 * c + op 0 3 * d) ::
      (op 1 0 * a + op 1 1 * b + op 1 2 * c + op 1 3 * d) ::
      (op 2 0 * a + op 2 1 * b + op 2 2 * c + op 2 3 * d) ::
      (op 3 0 * a + op 3 1 * b + op 3 2 * c + op 3 3 * d) ::
      mulBlocks4 op rest
  | s => s

/-- The `targ` argument of `Circuit._single_gate`: either a single integer or
a sequence of integers. -/
inductive Targ where
  | int (q : Nat)
  | seq (qs : List Nat)

/-- All qubit indices mentioned by a target argument are in `[0, n)`. -/
def Targ.valid (n : Nat) : Targ → Prop
  | .int q => q < n
  | .seq qs => ∀ q ∈ qs, q < n

/-- One iteration of the target loop in `Circuit._single_gate`:
`swap(i, n-1)`; pairwise multiply; `swap(i, n-1)`. -/
def singleStep (n : Nat) (op : Matrix (Fin 2) (Fin 2) ℂ) (s : List ℂ)
    (q : Nat) : List ℂ :=
  swapState n q (n - 1) (mulBlocks2 op (swapState n q (n - 1) s))

/-- `Circuit._single_gate(op, targ)`: a single integer is wrapped into a
one-element list, a sequence is deduplicated (`list(set(targ))`; the source's
iteration order over the deduplicated set is unspecified, modelled here by
`List.dedup` which keeps first occurrences); then each target is processed in
turn on the state current at that point. -/
def singleGate (n : Nat) (op : Matrix (Fin 2) (Fin 2) ℂ) (targ : Targ)
    (s : List ℂ) : List ℂ :=
  (match targ with
   | .int q => [q]
   | .seq qs => qs.dedup).foldl (singleStep n op) s

/-- Membership in `reg = {n-2, n-1}`, the working register of
`Circuit._double_gate`. -/
def inReg (n q : Nat) : Bool :=
  q == n - 2 || q == n - 1

/-- The forward swap sequence of each placement case of
`Circuit._double_gate` (the swaps executed before the block multiply). -/
def relocate (n ctrl targ : Nat) (s : List ℂ) : List ℂ :=
  if !(inReg n ctrl) && !(inReg n targ) then
    swapState n targ (n - 1) (swapState n ctrl (n - 2) s)
  else if inReg n ctrl && inReg n targ then
    if ctrl = n - 1 then swapState n ctrl targ s else s
  else if inReg n ctrl && !(inReg n targ) then
    swapState n targ (n - 1)
      (if ctrl = n - 1 then swapState n ctrl (n - 2) s else s)
  else
    swapState n ctrl (n - 2)
      (if targ = n - 2 then swapState n targ (n - 1) s else s)

/-- The trailing swap sequence of each placement case of
`Circuit._double_gate` (the swaps executed after the block multiply, in
reverse order of `relocate`). -/
def restore (n ctrl targ : Nat) (s : List ℂ) : List ℂ :=
  if !(inReg n ctrl) && !(inReg n targ) then
    swapState n ctrl (n - 2) (swapState n targ (n - 1) s)
  else if inReg n ctrl && inReg n targ then
    if ctrl = n - 1 then swapState n ctrl targ s else s
  else if inReg n ctrl && !(inReg n targ) then
    (if ctrl = n - 1 then
      swapState n ctrl (n - 2) (swapState n targ (n - 1) s)
     else swapState n targ (n - 1) s)
  else
    (if targ = n - 2 then
      swapState n targ (n - 1) (swapState n ctrl (n - 2) s)
     else swapState n ctrl (n - 2) s)

/-- `Circuit._double_gate(op, ctrl, targ)`: raises (`none`) when
`ctrl == targ`, before any swap or multiplication; otherwise one of the four
placement cases relocates the two qubits onto the working register
`{n-2, n-1}`, block-multiplies, and undoes the swaps in reverse order. -/
def doubleGate (n : Nat) (op : Matrix (Fin 4) (Fin 4) ℂ) (ctrl targ : Nat)
    (s : List ℂ) : Option (List ℂ) :=
  if ctrl = targ then none
  else if !(inReg n ctrl) && !(inReg n targ) then
    some (swapState n ctrl (n - 2) (swapState n targ (n - 1)
      (mulBlocks4 op
        (swapState n targ (n - 1) (swapState n ctrl (n - 2) s)))))
  else if inReg n ctrl && inReg n targ then
    some ((fun t => if ctrl = n - 1 then swapState n ctrl targ t else t)
      (mulBlocks4 op
        (if ctrl = n - 1 then swapState n ctrl targ s else s)))
  else if inReg n ctrl && !(inReg n targ) then
    some ((fun t => if ctrl = n - 1 then
        swapState n ctrl (n - 2) (swapState n targ (n - 1) t)
      else swapState n targ (n - 1) t)
      (mulBlocks4 op
        (swapState n targ (n - 1)
          (if ctrl = n - 1 then swapState n ctrl (n - 2) s else s))))
  else
    some ((fun t => if targ = n - 2 then
        swapState n targ (n - 1) (swapState n ctrl (n - 2) t)
      else swapState n ctrl (n - 2) t)
      (mulBlocks4 op
        (swapState n ctrl (n - 2)
          (if targ = n - 2 then swapState n targ (n - 1) s else s))))

/-- Sum of squared amplitude magnitudes of a state list. -/
def listNormSq (s : List ℂ) : ℝ :=
  (s.map Complex.normSq).sum

/-- `x_gate` from qton/gate.py: `array([[0, 1], [1, 0]])`. -/
def x_gate : Matrix (Fin 2) (Fin 2) ℂ :=
  Matrix.of ![![0, 1], ![1, 0]]

/-- `cx_gate` from qton/gate.py:
`array([[1,0,0,0],[0,1,0,0],[0,0,0,1],[0,0,1,0]])`. -/
def cx_gate : Matrix (Fin 4) (Fin 4) ℂ :=
  Matrix.of ![![1, 0, 0, 0], ![0, 1, 0, 0], ![0, 0, 0, 1], ![0, 0, 1, 0]]

/-- The `Circuit` object: a qubit count and the amplitude list. -/
structure Circuit where
  number_of_qubits : Nat
  state : List ℂ

/-- `Circuit.__init__`: `state = zeros(2**n); state[0] = 1`. -/
def Circuit.init (n : Nat) : Circuit :=
  ⟨n, (List.replicate (2 ^ n) (0 : ℂ)).set 0 1⟩

/-- Model of the source method that re-initializes the circuit state
(`self.state = array(vector, complex)`): the state is replaced wholesale by a
fresh complex copy of the caller's vector; no validation of its length or
norm is performed and the qubit count is untouched. -/
def Circuit.initVector (c : Circuit) (v : List ℂ) : Circuit :=
  { c with state := v }

/-- `Circuit.measure`: builds `prob[i] = abs(state[i])**2` for every
`i in range(2**n)` and hands `arange(2**n)` together with `prob` to
`numpy.random.choice`; the circuit itself is returned unchanged (no
assignment to `self.state` or `self.number_of_qubits` occurs).  The actual
random draw is performed by the external library, so the model returns the
pair of arrays given to `choice` alongside the unchanged circuit.
`abs(z)**2` is written as `Complex.normSq z`, exactly equal to it over the
reals. -/
def Circuit.measure (c : Circuit) : (List ℝ × List Nat) × Circuit :=
  (((List.range (2 ^ c.number_of_qubits)).map
      (fun i => Complex.normSq (c.state.getD i 0)),
    List.range (2 ^ c.number_of_qubits)), c)

/-- `Circuit.swap` as a method on the circuit object. -/
def Circuit.swap (c : Circuit) (q1 q2 : Nat) : Circuit :=
  ⟨c.number_of_qubits, swapState c.number_of_qubits q1 q2 c.state⟩

/-- `Circuit.x`: `self._single_gate(x_gate, targ)`. -/
def Circuit.x (c : Circuit) (targ : Targ) : Circuit :=
  ⟨c.number_of_qubits, singleGate c.number_of_qubits x_gate targ c.state⟩

/-- `Circuit.cx`: `self._double_gate(cx_gate, ctrl, targ)`. -/
def Circuit.cx (c : Circuit) (ctrl targ : Nat) : Option Circuit :=
  (doubleGate c.number_of_qubits cx_gate ctrl targ c.state).map
    (fun s => ⟨c.number_of_qubits, s⟩)

end Qton

namespace Qton

/-! ### Bit-string machinery -/

theorem valLE_lt (l : List Bool) : valLE l < 2 ^ l.length := by
  induction l with
  | nil => simp [valLE]
  | cons b t ih =>
      simp only [valLE, List.length_cons, pow_succ]
      cases b <;> simp <;> omega

theorem valLE_testBit (l : List Bool) : ∀ k : Nat,
    (valLE l).testBit k = l.getD k false := by
  induction l with
  | nil => intro k; simp [valLE, Nat.zero_testBit]
  | cons b t ih =>
      intro k
      cases k with
      | zero =>
          simp only [Nat.testBit_zero, valLE, List.getD]
          cases b <;> simp <;> omega
      | succ k =>
          rw [Nat.testBit_succ]
          have hdiv : ((if b then 1 else 0) + 2 * valLE t) / 2 = valLE t := by
            cases b <;> simp <;> omega
          simp only [valLE, hdiv, ih k]
          rfl

theorem valLE_append_single (l : List Bool) (b : Bool) :
    valLE (l ++ [b]) = valLE l + (if b then 1 else 0) * 2 ^ l.length := by
  induction l with
  | nil => simp [valLE]
  | cons c t ih =>
      have h : (c :: t) ++ [b] = c :: (t ++ [b]) := rfl
      rw [h]
      show (if c then 1 else 0) + 2 * valLE (t ++ [b]) = _
      rw [ih]
      simp only [valLE, List.length_cons, pow_succ]
      ring

theorem bitsToNat_foldl (l : List Bool) : ∀ a : Nat,
    l.foldl (fun acc b => 2 * acc + (if b then 1 else 0)) a
      = a * 2 ^ l.length + valLE l.reverse := by
  induction l with
  | nil => intro a; simp [valLE]
  | cons b t ih =>
      intro a
      simp only [List.foldl_cons, ih, List.reverse_cons, List.length_cons,
        valLE_append_single, List.length_reverse, pow_succ]
      ring

theorem bitsToNat_eq_valLE (l : List Bool) : bitsToNat l = valLE l.reverse := by
  simpa [bitsToNat] using bitsToNat_foldl l 0

theorem bitsToNat_lt (l : List Bool) : bitsToNat l < 2 ^ l.length := by
  rw [bitsToNat_eq_valLE]
  simpa using valLE_lt l.reverse

theorem bitsToNat_testBit_lt (l : List Bool) {k : Nat} (hk : k < l.length) :
    (bitsToNat l).testBit k = l.getD (l.length - 1 - k) false := by
  rw [bitsToNat_eq_valLE, valLE_testBit]
  have h1 : k < l.reverse.length := by simpa using hk
  have h2 : l.length - 1 - k < l.length := by omega
  rw [List.getD_eq_getElem _ _ h1, List.getD_eq_getElem _ _ h2,
    List.getElem_reverse]

theorem bitsToNat_testBit_ge (l : List Bool) {k : Nat} (hk : l.length ≤ k) :
    (bitsToNat l).testBit k = false := by
  have := bitsToNat_lt l
  exact Nat.testBit_lt_two_pow (lt_of_lt_of_le this (Nat.pow_le_pow_right (by norm_num) hk))

theorem bitStr_length (n i : Nat) : (bitStr n i).length = n := by
  simp [bitStr]

theorem bitStr_getD {n : Nat} (i : Nat) {q : Nat} (hq : q < n) :
    (bitStr n i).getD q false = i.testBit (n - 1 - q) := by
  have hq' : q < (bitStr n i).length := by simpa [bitStr_length] using hq
  rw [List.getD_eq_getElem _ _ hq']
  simp [bitStr]

end Qton

namespace Qton

/-! ### The exchanged index -/

theorem testBit_ge_of_lt {x n k : Nat} (hx : x < 2 ^ n) (hk : n ≤ k) :
    x.testBit k = false :=
  Nat.testBit_lt_two_pow
    (lt_of_lt_of_le hx (Nat.pow_le_pow_right (by norm_num) hk))

theorem swapBits_length (q1 q2 : Nat) (bs : List Bool) :
    (swapBits q1 q2 bs).length = bs.length := by
  simp [swapBits]

theorem swapBits_getD {q1 q2 : Nat} {bs : List Bool} (h1 : q1 < bs.length)
    (h2 : q2 < bs.length) {k : Nat} (hk : k < bs.length) :
    (swapBits q1 q2 bs).getD k false =
      if k = q1 then bs.getD q2 false
      else if k = q2 then bs.getD q1 false
      else bs.getD k false := by
  have hk' : k < ((bs.set q1 (bs.getD q2 false)).set q2
      (bs.getD q1 false)).length := by simpa using hk
  show ((bs.set q1 (bs.getD q2 false)).set q2 (bs.getD q1 false)).getD k false = _
  rw [List.getD_eq_getElem _ _ hk', List.getElem_set, List.getElem_set]
  by_cases e2 : q2 = k
  · rw [if_pos e2]
    by_cases e1 : k = q1
    · rw [if_pos e1, ← e1, e2]
    · rw [if_neg e1, if_pos e2.symm]
  · rw [if_neg e2]
    by_cases e1 : q1 = k
    · rw [if_pos e1, if_pos e1.symm]
    · rw [if_neg e1, if_neg (fun h => e1 h.symm), if_neg (fun h => e2 h.symm),
        List.getD_eq_getElem bs _ hk]

theorem swapIdx_lt {n q1 q2 : Nat} (i : Nat) : swapIdx n q1 q2 i < 2 ^ n := by
  have h := bitsToNat_lt (swapBits q1 q2 (bitStr n i))
  rwa [swapBits_length, bitStr_length] at h

theorem swapIdx_testBit {n q1 q2 : Nat} (hq1 : q1 < n) (hq2 : q2 < n)
    (i : Nat) {k : Nat} (hk : k < n) :
    (swapIdx n q1 q2 i).testBit k =
      if k = n - 1 - q1 then i.testBit (n - 1 - q2)
      else if k = n - 1 - q2 then i.testBit (n - 1 - q1)
      else i.testBit k := by
  have hlen : (swapBits q1 q2 (bitStr n i)).length = n := by
    rw [swapBits_length, bitStr_length]
  show (bitsToNat (swapBits q1 q2 (bitStr n i))).testBit k = _
  rw [bitsToNat_testBit_lt _ (by rw [hlen]; exact hk), hlen]
  have h1 : q1 < (bitStr n i).length := by rw [bitStr_length]; exact hq1
  have h2 : q2 < (bitStr n i).length := by rw [bitStr_length]; exact hq2
  have hk2 : n - 1 - k < (bitStr n i).length := by rw [bitStr_length]; omega
  rw [swapBits_getD h1 h2 hk2,
    bitStr_getD i hq1, bitStr_getD i hq2,
    bitStr_getD i (show n - 1 - k < n by omega)]
  have hkk : n - 1 - (n - 1 - k) = k := by omega
  rw [hkk]
  by_cases c1 : n - 1 - k = q1
  · rw [if_pos c1, if_pos (by omega)]
  · rw [if_neg c1]
    by_cases c2 : n - 1 - k = q2
    · rw [if_pos c2, if_neg (by omega), if_pos (by omega)]
    · rw [if_neg c2, if_neg (by omega), if_neg (by omega)]

theorem swapIdx_involutive {n q1 q2 : Nat} (hq1 : q1 < n) (hq2 : q2 < n)
    {i : Nat} (hi : i < 2 ^ n) :
    swapIdx n q1 q2 (swapIdx n q1 q2 i) = i := by
  apply Nat.eq_of_testBit_eq
  intro k
  by_cases hk : k < n
  · rw [swapIdx_testBit hq1 hq2 _ hk]
    by_cases c1 : k = n - 1 - q1
    · rw [if_pos c1, swapIdx_testBit hq1 hq2 i (show n - 1 - q2 < n by omega)]
      by_cases d : n - 1 - q2 = n - 1 - q1
      · rw [if_pos d, c1, d]
      · rw [if_neg d, if_pos rfl, c1]
    · rw [if_neg c1]
      by_cases c2 : k = n - 1 - q2
      · rw [if_pos c2,
          swapIdx_testBit hq1 hq2 i (show n - 1 - q1 < n by omega),
          if_pos rfl, c2]
      · rw [if_neg c2, swapIdx_testBit hq1 hq2 i hk, if_neg c1, if_neg c2]
  · rw [testBit_ge_of_lt (swapIdx_lt _) (by omega),
      testBit_ge_of_lt hi (by omega)]

theorem swapIdx_eq_self {n q1 q2 : Nat} (hq1 : q1 < n) (hq2 : q2 < n)
    {i : Nat} (hi : i < 2 ^ n)
    (heq : (bitStr n i).getD q1 false = (bitStr n i).getD q2 false) :
    swapIdx n q1 q2 i = i := by
  rw [bitStr_getD i hq1, bitStr_getD i hq2] at heq
  apply Nat.eq_of_testBit_eq
  intro k
  by_cases hk : k < n
  · rw [swapIdx_testBit hq1 hq2 i hk]
    by_cases c1 : k = n - 1 - q1
    · rw [if_pos c1, ← heq, c1]
    · rw [if_neg c1]
      by_cases c2 : k = n - 1 - q2
      · rw [if_pos c2, heq, c2]
      · rw [if_neg c2]
  · rw [testBit_ge_of_lt (swapIdx_lt _) (by omega),
      testBit_ge_of_lt hi (by omega)]

end Qton

namespace Qton

/-! ### The swap scan -/

theorem swapCore_length (n q1 q2 : Nat) (s : List ℂ) :
    (swapCore n q1 q2 s).length = 2 ^ n := by
  simp [swapCore]

theorem swapCore_getD {n q1 q2 : Nat} (hq1 : q1 < n) (hq2 : q2 < n)
    (s : List ℂ) {i : Nat} (hi : i < 2 ^ n) :
    (swapCore n q1 q2 s).getD i 0 = s.getD (swapIdx n q1 q2 i) 0 := by
  have hi' : i < (swapCore n q1 q2 s).length := by
    rw [swapCore_length]; exact hi
  rw [List.getD_eq_getElem _ _ hi']
  simp only [swapCore, List.getElem_map, List.getElem_range]
  by_cases h : (bitStr n i).getD q1 false = (bitStr n i).getD q2 false
  · rw [if_pos h, swapIdx_eq_self hq1 hq2 hi h]
  · rw [if_neg h]

theorem swapState_length {n q1 q2 : Nat} {s : List ℂ} (hs : s.length = 2 ^ n) :
    (swapState n q1 q2 s).length = 2 ^ n := by
  unfold swapState
  split_ifs
  · exact hs
  · exact swapCore_length n q1 q2 s

theorem swapState_getD {n q1 q2 : Nat} (hq1 : q1 < n) (hq2 : q2 < n)
    (hne : q1 ≠ q2) (s : List ℂ) {i : Nat} (hi : i < 2 ^ n) :
    (swapState n q1 q2 s).getD i 0 = s.getD (swapIdx n q1 q2 i) 0 := by
  rw [show swapState n q1 q2 s = swapCore n q1 q2 s from by
    simp [swapState, hne]]
  exact swapCore_getD hq1 hq2 s hi

theorem swapState_involutive {n q1 q2 : Nat} (hq1 : q1 < n) (hq2 : q2 < n)
    {s : List ℂ} (hs : s.length = 2 ^ n) :
    swapState n q1 q2 (swapState n q1 q2 s) = s := by
  by_cases he : q1 = q2
  · simp [swapState, he]
  · have l1 : (swapState n q1 q2 s).length = 2 ^ n := swapState_length hs
    apply List.ext_getElem
    · rw [swapState_length l1, hs]
    · intro i hA hB
      have hi : i < 2 ^ n := by rw [hs] at hB; exact hB
      rw [← List.getD_eq_getElem _ 0 hA, ← List.getD_eq_getElem _ 0 hB,
        swapState_getD hq1 hq2 he _ hi,
        swapState_getD hq1 hq2 he _ (swapIdx_lt i),
        swapIdx_involutive hq1 hq2 hi]

/-! ### Norm bookkeeping -/

theorem listNormSq_nil : listNormSq [] = 0 := rfl

theorem listNormSq_cons (a : ℂ) (s : List ℂ) :
    listNormSq (a :: s) = Complex.normSq a + listNormSq s := by
  simp [listNormSq]

theorem listNormSq_eq_sum {s : List ℂ} {N : Nat} (hs : s.length = N) :
    listNormSq s = ∑ i ∈ Finset.range N, Complex.normSq (s.getD i 0) := by
  induction s generalizing N with
  | nil =>
      subst hs
      simp [listNormSq]
  | cons a t ih =>
      subst hs
      rw [List.length_cons, Finset.sum_range_succ', listNormSq_cons, ih rfl]
      simp only [List.getD_cons_succ, List.getD_cons_zero]
      ring

theorem swapState_normSq {n q1 q2 : Nat} (hq1 : q1 < n) (hq2 : q2 < n)
    {s : List ℂ} (hs : s.length = 2 ^ n) :
    listNormSq (swapState n q1 q2 s) = listNormSq s := by
  by_cases he : q1 = q2
  · simp [swapState, he]
  · rw [listNormSq_eq_sum (swapState_length hs), listNormSq_eq_sum hs]
    refine Finset.sum_nbij' (fun i => swapIdx n q1 q2 i)
      (fun i => swapIdx n q1 q2 i) ?_ ?_ ?_ ?_ ?_
    · intro a _
      simpa using swapIdx_lt a
    · intro a _
      simpa using swapIdx_lt a
    · intro a ha
      exact swapIdx_involutive hq1 hq2 (Finset.mem_range.1 ha)
    · intro a ha
      exact swapIdx_involutive hq1 hq2 (Finset.mem_range.1 ha)
    · intro a ha
      rw [swapState_getD hq1 hq2 he s (Finset.mem_range.1 ha)]

end Qton

namespace Qton

/-! ### Block multiplication -/

theorem pair_normSq {op : Matrix (Fin 2) (Fin 2) ℂ}
    (hU : op.conjTranspose * op = 1) (a b : ℂ) :
    Complex.normSq (op 0 0 * a + op 0 1 * b)
      + Complex.normSq (op 1 0 * a + op 1 1 * b)
      = Complex.normSq a + Complex.normSq b := by
  have h := fun i j : Fin 2 => congrFun (congrFun hU i) j
  have e00 := h 0 0
  have e01 := h 0 1
  have e10 := h 1 0
  have e11 := h 1 1
  simp [Matrix.mul_apply, Matrix.conjTranspose_apply, Fin.sum_univ_two,
    Matrix.one_apply, Complex.star_def] at e00 e01 e10 e11
  have key : ((Complex.normSq (op 0 0 * a + op 0 1 * b)
      + Complex.normSq (op 1 0 * a + op 1 1 * b) : ℝ) : ℂ)
      = ((Complex.normSq a + Complex.normSq b : ℝ) : ℂ) := by
    push_cast
    simp only [← Complex.mul_conj, map_add, map_mul]
    linear_combination (a * (starRingEnd ℂ) a) * e00
      + (b * (starRingEnd ℂ) b) * e11
      + (a * (starRingEnd ℂ) b) * e10
      + ((starRingEnd ℂ) a * b) * e01
  exact_mod_cast key

theorem mulBlocks2_length (op : Matrix (Fin 2) (Fin 2) ℂ) :
    ∀ s : List ℂ, (mulBlocks2 op s).length = s.length
  | [] => rfl
  | [_] => rfl
  | _ :: _ :: rest => by
      simp only [mulBlocks2, List.length_cons, mulBlocks2_length op rest]

theorem mulBlocks2_normSq {op : Matrix (Fin 2) (Fin 2) ℂ}
    (hU : op.conjTranspose * op = 1) :
    ∀ s : List ℂ, listNormSq (mulBlocks2 op s) = listNormSq s
  | [] => rfl
  | [_] => rfl
  | a :: b :: rest => by
      simp only [mulBlocks2, listNormSq_cons]
      rw [mulBlocks2_normSq hU rest]
      have hp := pair_normSq hU a b
      linarith

theorem mulBlocks2_getD (op : Matrix (Fin 2) (Fin 2) ℂ) :
    ∀ (s : List ℂ) (k : Nat), 2 * k + 1 < s.length →
      (mulBlocks2 op s).getD (2 * k) 0
          = op 0 0 * s.getD (2 * k) 0 + op 0 1 * s.getD (2 * k + 1) 0
        ∧ (mulBlocks2 op s).getD (2 * k + 1) 0
          = op 1 0 * s.getD (2 * k) 0 + op 1 1 * s.getD (2 * k + 1) 0
  | [], k, h => by simp at h
  | [_], k, h => by
      simp only [List.length_singleton] at h
      omega
  | a :: b :: rest, 0, _ => by
      simp [mulBlocks2]
  | a :: b :: rest, (k + 1), h => by
      have hlen : 2 * k + 1 < rest.length := by
        simp only [List.length_cons] at h
        omega
      have ih := mulBlocks2_getD op rest k hlen
      have e1 : 2 * (k + 1) = 2 * k + 1 + 1 := by ring
      have e2 : 2 * (k + 1) + 1 = 2 * k + 1 + 1 + 1 := by ring
      simp only [mulBlocks2, e1, e2, List.getD_cons_succ]
      exact ih

theorem quad_normSq {op : Matrix (Fin 4) (Fin 4) ℂ}
    (hU : op.conjTranspose * op = 1) (v0 v1 v2 v3 : ℂ) :
    Complex.normSq (op 0 0 * v0 + op 0 1 * v1 + op 0 2 * v2 + op 0 3 * v3)
      + Complex.normSq (op 1 0 * v0 + op 1 1 * v1 + op 1 2 * v2 + op 1 3 * v3)
      + Complex.normSq (op 2 0 * v0 + op 2 1 * v1 + op 2 2 * v2 + op 2 3 * v3)
      + Complex.normSq (op 3 0 * v0 + op 3 1 * v1 + op 3 2 * v2 + op 3 3 * v3)
      = Complex.normSq v0 + Complex.normSq v1
        + Complex.normSq v2 + Complex.normSq v3 := by
  have h := fun i j : Fin 4 => congrFun (congrFun hU i) j
  have e00 := h 0 0
  have e01 := h 0 1
  have e02 := h 0 2
  have e03 := h 0 3
  have e10 := h 1 0
  have e11 := h 1 1
  have e12 := h 1 2
  have e13 := h 1 3
  have e20 := h 2 0
  have e21 := h 2 1
  have e22 := h 2 2
  have e23 := h 2 3
  have e30 := h 3 0
  have e31 := h 3 1
  have e32 := h 3 2
  have e33 := h 3 3
  simp [Matrix.mul_apply, Matrix.conjTranspose_apply, Fin.sum_univ_four,
    Matrix.one_apply, Complex.star_def] at e00 e01 e02 e03 e10 e11 e12 e13 e20 e21 e22 e23 e30 e31 e32 e33
  have key : ((Complex.normSq (op 0 0 * v0 + op 0 1 * v1 + op 0 2 * v2 + op 0 3 * v3)
      + Complex.normSq (op 1 0 * v0 + op 1 1 * v1 + op 1 2 * v2 + op 1 3 * v3)
      + Complex.normSq (op 2 0 * v0 + op 2 1 * v1 + op 2 2 * v2 + op 2 3 * v3)
      + Complex.normSq (op 3 0 * v0 + op 3 1 * v1 + op 3 2 * v2 + op 3 3 * v3) : ℝ) : ℂ)
      = ((Complex.normSq v0 + Complex.normSq v1
        + Complex.normSq v2 + Complex.normSq v3 : ℝ) : ℂ) := by
    push_cast
    simp only [← Complex.mul_conj, map_add, map_mul]
    linear_combination (v0 * (starRingEnd ℂ) v0) * e00
      + (v0 * (starRingEnd ℂ) v1) * e10
      + (v0 * (starRingEnd ℂ) v2) * e20
      + (v0 * (starRingEnd ℂ) v3) * e30
      + (v1 * (starRingEnd ℂ) v0) * e01
      + (v1 * (starRingEnd ℂ) v1) * e11
      + (v1 * (starRingEnd ℂ) v2) * e21
      + (v1 * (starRingEnd ℂ) v3) * e31
      + (v2 * (starRingEnd ℂ) v0) * e02
      + (v2 * (starRingEnd ℂ) v1) * e12
      + (v2 * (starRingEnd ℂ) v2) * e22
      + (v2 * (starRingEnd ℂ) v3) * e32
      + (v3 * (starRingEnd ℂ) v0) * e03
      + (v3 * (starRingEnd ℂ) v1) * e13
      + (v3 * (starRingEnd ℂ) v2) * e23
      + (v3 * (starRingEnd ℂ) v3) * e33
  exact_mod_cast key

theorem mulBlocks4_length (op : Matrix (Fin 4) (Fin 4) ℂ) :
    ∀ s : List ℂ, (mulBlocks4 op s).length = s.length
  | [] => rfl
  | [_] => rfl
  | [_, _] => rfl
  | [_, _, _] => rfl
  | _ :: _ :: _ :: _ :: rest => by
      simp only [mulBlocks4, List.length_cons, mulBlocks4_length op rest]

theorem mulBlocks4_normSq {op : Matrix (Fin 4) (Fin 4) ℂ}
    (hU : op.conjTranspose * op = 1) :
    ∀ s : List ℂ, listNormSq (mulBlocks4 op s) = listNormSq s
  | [] => rfl
  | [_] => rfl
  | [_, _] => rfl
  | [_, _, _] => rfl
  | a :: b :: c :: d :: rest => by
      simp only [mulBlocks4, listNormSq_cons]
      rw [mulBlocks4_normSq hU rest]
      have hq := quad_normSq hU a b c d
      linarith

theorem mulBlocks4_one : ∀ s : List ℂ, mulBlocks4 1 s = s
  | [] => rfl
  | [_] => rfl
  | [_, _] => rfl
  | [_, _, _] => rfl
  | a :: b :: c :: d :: rest => by
      have h1 : ∀ i : Fin 4, (1 : Matrix (Fin 4) (Fin 4) ℂ) i i = 1 :=
        fun i => Matrix.one_apply_eq i
      have h0 : ∀ i j : Fin 4, i ≠ j → (1 : Matrix (Fin 4) (Fin 4) ℂ) i j = 0 :=
        fun i j hij => Matrix.one_apply_ne hij
      simp only [mulBlocks4, mulBlocks4_one rest]
      rw [h0 0 1 (by decide), h0 0 2 (by decide), h0 0 3 (by decide),
        h0 1 0 (by decide), h0 1 2 (by decide), h0 1 3 (by decide),
        h0 2 0 (by decide), h0 2 1 (by decide), h0 2 3 (by decide),
        h0 3 0 (by decide), h0 3 1 (by decide), h0 3 2 (by decide),
        h1 0, h1 1, h1 2, h1 3]
      simp only [List.cons.injEq]
      exact ⟨by ring, by ring, by ring, by ring, trivial⟩

end Qton

namespace Qton

/-! ### Single-qubit gate application -/

theorem singleStep_length {n : Nat} {op : Matrix (Fin 2) (Fin 2) ℂ}
    {s : List ℂ} (hs : s.length = 2 ^ n) (q : Nat) :
    (singleStep n op s q).length = 2 ^ n := by
  unfold singleStep
  exact swapState_length (by rw [mulBlocks2_length]; exact swapState_length hs)

theorem singleStep_normSq {n : Nat} {op : Matrix (Fin 2) (Fin 2) ℂ}
    (hU : op.conjTranspose * op = 1) {s : List ℂ} (hs : s.length = 2 ^ n)
    {q : Nat} (hq : q < n) :
    listNormSq (singleStep n op s q) = listNormSq s := by
  have hn1 : n - 1 < n := by omega
  unfold singleStep
  rw [swapState_normSq hq hn1
      (by rw [mulBlocks2_length]; exact swapState_length hs),
    mulBlocks2_normSq hU, swapState_normSq hq hn1 hs]

theorem foldl_singleStep {n : Nat} {op : Matrix (Fin 2) (Fin 2) ℂ}
    (hU : op.conjTranspose * op = 1) :
    ∀ (ts : List Nat) (s : List ℂ), (∀ q ∈ ts, q < n) → s.length = 2 ^ n →
      (ts.foldl (singleStep n op) s).length = 2 ^ n ∧
        listNormSq (ts.foldl (singleStep n op) s) = listNormSq s
  | [], _, _, hs => ⟨hs, rfl⟩
  | q :: ts, s, hq, hs => by
      have h1 : q < n := hq q (by simp)
      have h2 := foldl_singleStep hU ts (singleStep n op s q)
        (fun r hr => hq r (by simp [hr])) (singleStep_length hs q)
      rw [List.foldl_cons]
      exact ⟨h2.1, h2.2.trans (singleStep_normSq hU hs h1)⟩

/-! ### Two-qubit gate application -/

theorem doubleGate_eq {n : Nat} (op : Matrix (Fin 4) (Fin 4) ℂ)
    {ctrl targ : Nat} (hne : ctrl ≠ targ) (s : List ℂ) :
    doubleGate n op ctrl targ s
      = some (restore n ctrl targ (mulBlocks4 op (relocate n ctrl targ s))) := by
  unfold doubleGate relocate restore
  rw [if_neg hne]
  split_ifs <;> rfl

theorem restore_relocate {n ctrl targ : Nat} (hc : ctrl < n) (ht : targ < n)
    {s : List ℂ} (hs : s.length = 2 ^ n) :
    restore n ctrl targ (relocate n ctrl targ s) = s := by
  have hn1 : n - 1 < n := by omega
  have hn2 : n - 2 < n := by omega
  unfold relocate restore
  split_ifs
  · rw [swapState_involutive ht hn1 (swapState_length hs),
      swapState_involutive hc hn2 hs]
  · rw [swapState_involutive hc ht hs]
  · rfl
  · rw [swapState_involutive ht hn1 (swapState_length hs),
      swapState_involutive hc hn2 hs]
  · rw [swapState_involutive ht hn1 hs]
  · rw [swapState_involutive hc hn2 (swapState_length hs),
      swapState_involutive ht hn1 hs]
  · rw [swapState_involutive hc hn2 hs]

theorem relocate_length {n ctrl targ : Nat} {s : List ℂ}
    (hs : s.length = 2 ^ n) : (relocate n ctrl targ s).length = 2 ^ n := by
  unfold relocate
  split_ifs <;>
    first
      | exact hs
      | exact swapState_length hs
      | exact swapState_length (swapState_length hs)

theorem restore_length {n ctrl targ : Nat} {s : List ℂ}
    (hs : s.length = 2 ^ n) : (restore n ctrl targ s).length = 2 ^ n := by
  unfold restore
  split_ifs <;>
    first
      | exact hs
      | exact swapState_length hs
      | exact swapState_length (swapState_length hs)

theorem relocate_normSq {n ctrl targ : Nat} (hc : ctrl < n) (ht : targ < n)
    {s : List ℂ} (hs : s.length = 2 ^ n) :
    listNormSq (relocate n ctrl targ s) = listNormSq s := by
  have hn1 : n - 1 < n := by omega
  have hn2 : n - 2 < n := by omega
  unfold relocate
  split_ifs
  · rw [swapState_normSq ht hn1 (swapState_length hs),
      swapState_normSq hc hn2 hs]
  · rw [swapState_normSq hc ht hs]
  · rfl
  · rw [swapState_normSq ht hn1 (swapState_length hs),
      swapState_normSq hc hn2 hs]
  · rw [swapState_normSq ht hn1 hs]
  · rw [swapState_normSq hc hn2 (swapState_length hs),
      swapState_normSq ht hn1 hs]
  · rw [swapState_normSq hc hn2 hs]

theorem restore_normSq {n ctrl targ : Nat} (hc : ctrl < n) (ht : targ < n)
    {s : List ℂ} (hs : s.length = 2 ^ n) :
    listNormSq (restore n ctrl targ s) = listNormSq s := by
  have hn1 : n - 1 < n := by omega
  have hn2 : n - 2 < n := by omega
  unfold restore
  split_ifs
  · rw [swapState_normSq hc hn2 (swapState_length hs),
      swapState_normSq ht hn1 hs]
  · rw [swapState_normSq hc ht hs]
  · rfl
  · rw [swapState_normSq hc hn2 (swapState_length hs),
      swapState_normSq ht hn1 hs]
  · rw [swapState_normSq ht hn1 hs]
  · rw [swapState_normSq ht hn1 (swapState_length hs),
      swapState_normSq hc hn2 hs]
  · rw [swapState_normSq hc hn2 hs]

end Qton

namespace Qton

/-! ### Claim theorems -/

/-- C1: For every state vector of an `n`-qubit circuit and every pair of
distinct qubit indices `q1, q2 < n`, `swap(q1, q2)` sets the new amplitude at
each basis index `i < 2^n` to the pre-call amplitude at the index obtained by
exchanging the characters at string positions `q1` and `q2` of `i`'s `n`-bit
binary string, where the leftmost character (string position `q`, holding bit
`n - 1 - q`) is qubit 0; and `swap(q, q)` leaves the state unchanged for
every `q`. -/
theorem C1_swap_permutes {n q1 q2 : Nat} (hq1 : q1 < n) (hq2 : q2 < n)
    (hne : q1 ≠ q2) (s : List ℂ) {i : Nat} (hi : i < 2 ^ n) :
    (swapState n q1 q2 s).getD i 0 = s.getD (swapIdx n q1 q2 i) 0
      ∧ swapIdx n q1 q2 i < 2 ^ n
      ∧ (swapIdx n q1 q2 i).testBit (n - 1 - q1) = i.testBit (n - 1 - q2)
      ∧ (swapIdx n q1 q2 i).testBit (n - 1 - q2) = i.testBit (n - 1 - q1)
      ∧ (∀ k, k < n → k ≠ n - 1 - q1 → k ≠ n - 1 - q2 →
          (swapIdx n q1 q2 i).testBit k = i.testBit k)
      ∧ (∀ (q : Nat) (t : List ℂ), swapState n q q t = t) := by
  refine ⟨swapState_getD hq1 hq2 hne s hi, swapIdx_lt i, ?_, ?_, ?_, ?_⟩
  · rw [swapIdx_testBit hq1 hq2 i (show n - 1 - q1 < n by omega), if_pos rfl]
  · rw [swapIdx_testBit hq1 hq2 i (show n - 1 - q2 < n by omega),
      if_neg (by omega), if_pos rfl]
  · intro k hk h1 h2
    rw [swapIdx_testBit hq1 hq2 i hk, if_neg h1, if_neg h2]
  · intro q t
    simp [swapState]

theorem C1_witness :
    (0 : Nat) < 2 ∧ (1 : Nat) < 2 ∧ (0 : Nat) ≠ 1 ∧ (1 : Nat) < 2 ^ 2 ∧
    ((swapState 2 0 1 [0, 1, 0, 0]).getD 1 0
        = ([0, 1, 0, 0] : List ℂ).getD (swapIdx 2 0 1 1) 0
      ∧ swapIdx 2 0 1 1 < 2 ^ 2
      ∧ (swapIdx 2 0 1 1).testBit (2 - 1 - 0) = (1 : Nat).testBit (2 - 1 - 1)
      ∧ (swapIdx 2 0 1 1).testBit (2 - 1 - 1) = (1 : Nat).testBit (2 - 1 - 0)
      ∧ (∀ k, k < 2 → k ≠ 2 - 1 - 0 → k ≠ 2 - 1 - 1 →
          (swapIdx 2 0 1 1).testBit k = (1 : Nat).testBit k)
      ∧ (∀ (q : Nat) (t : List ℂ), swapState 2 q q t = t)) :=
  ⟨by decide, by decide, by decide, by decide,
    C1_swap_permutes (by decide) (by decide) (by decide) [0, 1, 0, 0]
      (by decide)⟩

/-- C2: For every pair of qubit indices `q1, q2 < n` (equal pairs included)
and every state vector of length `2^n`, calling `swap(q1, q2)` twice in
succession restores the amplitude vector exactly. -/
theorem C2_swap_involution {n q1 q2 : Nat} (hq1 : q1 < n) (hq2 : q2 < n)
    {s : List ℂ} (hs : s.length = 2 ^ n) :
    swapState n q1 q2 (swapState n q1 q2 s) = s :=
  swapState_involutive hq1 hq2 hs

theorem C2_witness :
    (0 : Nat) < 2 ∧ (1 : Nat) < 2 ∧ ([0, 1, 0, 0] : List ℂ).length = 2 ^ 2 ∧
      swapState 2 0 1 (swapState 2 0 1 [0, 1, 0, 0]) = [0, 1, 0, 0] :=
  ⟨by decide, by decide, by rfl,
    C2_swap_involution (by decide) (by decide) (by rfl)⟩

/-- C3: For every qubit count, every 4x4 matrix and every qubit index `q`,
the two-qubit gate application with control equal to target raises (modelled
as `none`), the check occurring before any swap or block multiplication, so
no state mutation is observable. -/
theorem C3_double_gate_rejects_equal (n : Nat) (op : Matrix (Fin 4) (Fin 4) ℂ)
    (q : Nat) (s : List ℂ) : doubleGate n op q q s = none := by
  unfold doubleGate
  rw [if_pos rfl]

/-- C4: For every 4x4 matrix and distinct in-range control and target, the
two-qubit application is exactly the relocate / block-multiply / restore
transaction, the trailing swaps undo the leading swaps of the same placement
case (no residual qubit permutation), and in particular applying the 4x4
identity matrix returns the state unchanged. -/
theorem C4_double_gate_restores {n ctrl targ : Nat} (hc : ctrl < n)
    (ht : targ < n) (hne : ctrl ≠ targ) {s : List ℂ}
    (hs : s.length = 2 ^ n) :
    (∀ op : Matrix (Fin 4) (Fin 4) ℂ,
        doubleGate n op ctrl targ s
          = some (restore n ctrl targ
              (mulBlocks4 op (relocate n ctrl targ s))))
      ∧ restore n ctrl targ (relocate n ctrl targ s) = s
      ∧ doubleGate n 1 ctrl targ s = some s := by
  refine ⟨fun op => doubleGate_eq op hne s, restore_relocate hc ht hs, ?_⟩
  rw [doubleGate_eq 1 hne s, mulBlocks4_one, restore_relocate hc ht hs]

theorem C4_witness :
    (0 : Nat) < 2 ∧ (1 : Nat) < 2 ∧ (0 : Nat) ≠ 1 ∧
      ([1, 0, 0, 0] : List ℂ).length = 2 ^ 2 ∧
    ((∀ op : Matrix (Fin 4) (Fin 4) ℂ,
        doubleGate 2 op 0 1 [1, 0, 0, 0]
          = some (restore 2 0 1 (mulBlocks4 op (relocate 2 0 1 [1, 0, 0, 0]))))
      ∧ restore 2 0 1 (relocate 2 0 1 [1, 0, 0, 0]) = [1, 0, 0, 0]
      ∧ doubleGate 2 1 0 1 [1, 0, 0, 0] = some [1, 0, 0, 0]) :=
  ⟨by decide, by decide, by decide, by rfl,
    C4_double_gate_restores (by decide) (by decide) (by decide) (by rfl)⟩

/-- C5: For every unitary 2x2 and 4x4 matrix and every normalized state of
length `2^n`, the sum of squared amplitude magnitudes after a single-qubit
application on valid targets, and after a two-qubit application on distinct
valid control/target, is still exactly 1 (exact complex arithmetic). -/
theorem C5_norm_preservation {n : Nat} {op2 : Matrix (Fin 2) (Fin 2) ℂ}
    {op4 : Matrix (Fin 4) (Fin 4) ℂ} (hU2 : op2.conjTranspose * op2 = 1)
    (hU4 : op4.conjTranspose * op4 = 1) {targ : Targ} (hv : targ.valid n)
    {ctrl tq : Nat} (hc : ctrl < n) (ht : tq < n) (hne : ctrl ≠ tq)
    {s : List ℂ} (hs : s.length = 2 ^ n) (hnorm : listNormSq s = 1) :
    listNormSq (singleGate n op2 targ s) = 1
      ∧ ∀ t, doubleGate n op4 ctrl tq s = some t → listNormSq t = 1 := by
  constructor
  · unfold singleGate
    cases targ with
    | int q =>
        have h := foldl_singleStep hU2 [q] s
          (by intro r hr; simp at hr; subst hr; exact hv) hs
        rw [h.2, hnorm]
    | seq qs =>
        have hall : ∀ q ∈ qs.dedup, q < n :=
          fun q hq => hv q (List.mem_dedup.1 hq)
        have h := foldl_singleStep hU2 qs.dedup s hall hs
        rw [h.2, hnorm]
  · intro t hsome
    rw [doubleGate_eq op4 hne s] at hsome
    have ht' := Option.some.inj hsome
    rw [← ht',
      restore_normSq hc ht (by rw [mulBlocks4_length]; exact relocate_length hs),
      mulBlocks4_normSq hU4, relocate_normSq hc ht hs, hnorm]

theorem C5_witness :
    ((1 : Matrix (Fin 2) (Fin 2) ℂ).conjTranspose * 1 = 1)
      ∧ ((1 : Matrix (Fin 4) (Fin 4) ℂ).conjTranspose * 1 = 1)
      ∧ Targ.valid 2 (Targ.int 0) ∧ (0 : Nat) < 2 ∧ (1 : Nat) < 2
      ∧ (0 : Nat) ≠ 1 ∧ ([1, 0, 0, 0] : List ℂ).length = 2 ^ 2
      ∧ listNormSq [1, 0, 0, 0] = 1
      ∧ (listNormSq (singleGate 2 1 (Targ.int 0) [1, 0, 0, 0]) = 1
          ∧ ∀ t, doubleGate 2 1 0 1 [1, 0, 0, 0] = some t → listNormSq t = 1) :=
  ⟨by simp, by simp, (by simp [Targ.valid] : Targ.valid 2 (Targ.int 0)),
    by decide, by decide, by decide, by rfl, by simp [listNormSq],
    C5_norm_preservation (by simp) (by simp)
      (by simp [Targ.valid] : Targ.valid 2 (Targ.int 0))
      (by decide) (by decide) (by decide) (by rfl) (by simp [listNormSq])⟩

end Qton

namespace Qton

/-- C6: On a freshly constructed 2-qubit circuit (state `[1,0,0,0]`),
applying Pauli X to qubit 0 yields `[0,0,1,0]` (basis `|10>` under the
leftmost-is-qubit-0 convention), and then `cx` with control 0 and target 1
yields `[0,0,0,1]` (basis `|11>`). -/
theorem C6_concrete_scenario :
    ((Circuit.init 2).x (Targ.int 0)).state = [0, 0, 1, 0]
      ∧ ((Circuit.init 2).x (Targ.int 0)).cx 0 1
          = some ⟨2, [0, 0, 0, 1]⟩ := by
  have hm2 : mulBlocks2 x_gate [1, 0, 0, 0] = [0, 1, 0, 0] := by
    norm_num [mulBlocks2, x_gate, Matrix.cons_val_zero, Matrix.cons_val_one,
      Matrix.head_cons]
  have hx : singleGate 2 x_gate (Targ.int 0) [1, 0, 0, 0] = [0, 0, 1, 0] := by
    show swapState 2 0 1 (mulBlocks2 x_gate (swapState 2 0 1 [1, 0, 0, 0]))
        = [0, 0, 1, 0]
    rw [show swapState 2 0 1 [1, 0, 0, 0] = [1, 0, 0, 0] from rfl, hm2]
    rfl
  have hm4 : mulBlocks4 cx_gate [0, 0, 1, 0] = [0, 0, 0, 1] := by
    norm_num [mulBlocks4, cx_gate, Matrix.cons_val_zero, Matrix.cons_val_one,
      Matrix.head_cons]
  have hd : doubleGate 2 cx_gate 0 1 [0, 0, 1, 0] = some [0, 0, 0, 1] := by
    rw [show doubleGate 2 cx_gate 0 1 [0, 0, 1, 0]
        = some (mulBlocks4 cx_gate [0, 0, 1, 0]) from rfl, hm4]
  constructor
  · exact hx
  · show (doubleGate 2 cx_gate 0 1
        (singleGate 2 x_gate (Targ.int 0) [1, 0, 0, 0])).map
          (fun s => Circuit.mk 2 s) = some ⟨2, [0, 0, 0, 1]⟩
    rw [hx, hd]
    rfl

/-- C7: `apply_single(op, targets)` accepts a single integer or a sequence;
a sequence is deduplicated before processing, so each distinct target is
processed exactly once, and for each target `q` the step is
`swap(q, n-1)`, then left-multiplication of the 2x2 matrix onto each
contiguous pair `[2k], [2k+1]`, then `swap(q, n-1)` again, each step using
the state current at that point (sequential fold). -/
theorem C7_single_gate_targets (n : Nat) (op : Matrix (Fin 2) (Fin 2) ℂ)
    (qs : List Nat) (q : Nat) (s : List ℂ) :
    singleGate n op (Targ.seq qs) s = qs.dedup.foldl (singleStep n op) s
      ∧ qs.dedup.Nodup
      ∧ (∀ r, r ∈ qs.dedup ↔ r ∈ qs)
      ∧ singleGate n op (Targ.int q) s = singleStep n op s q
      ∧ (∀ (t : List ℂ) (r : Nat),
          singleStep n op t r
            = swapState n r (n - 1) (mulBlocks2 op (swapState n r (n - 1) t)))
      ∧ (∀ (t : List ℂ) (k : Nat), 2 * k + 1 < t.length →
          (mulBlocks2 op t).getD (2 * k) 0
              = op 0 0 * t.getD (2 * k) 0 + op 0 1 * t.getD (2 * k + 1) 0
            ∧ (mulBlocks2 op t).getD (2 * k + 1) 0
              = op 1 0 * t.getD (2 * k) 0 + op 1 1 * t.getD (2 * k + 1) 0) :=
  ⟨rfl, List.nodup_dedup qs, fun _ => List.mem_dedup, rfl, fun _ _ => rfl,
    fun t k hk => mulBlocks2_getD op t k hk⟩

theorem C7_witness :
    singleGate 1 1 (Targ.seq [0, 0]) [1, 0]
        = ([0, 0] : List Nat).dedup.foldl (singleStep 1 1) [1, 0]
      ∧ ([0, 0] : List Nat).dedup.Nodup
      ∧ (∀ r, r ∈ ([0, 0] : List Nat).dedup ↔ r ∈ ([0, 0] : List Nat))
      ∧ singleGate 1 1 (Targ.int 0) [1, 0] = singleStep 1 1 [1, 0] 0
      ∧ (∀ (t : List ℂ) (r : Nat),
          singleStep 1 1 t r
            = swapState 1 r (1 - 1) (mulBlocks2 1 (swapState 1 r (1 - 1) t)))
      ∧ (∀ (t : List ℂ) (k : Nat), 2 * k + 1 < t.length →
          (mulBlocks2 1 t).getD (2 * k) 0
              = (1 : Matrix (Fin 2) (Fin 2) ℂ) 0 0 * t.getD (2 * k) 0
                + (1 : Matrix (Fin 2) (Fin 2) ℂ) 0 1 * t.getD (2 * k + 1) 0
            ∧ (mulBlocks2 1 t).getD (2 * k + 1) 0
              = (1 : Matrix (Fin 2) (Fin 2) ℂ) 1 0 * t.getD (2 * k) 0
                + (1 : Matrix (Fin 2) (Fin 2) ℂ) 1 1 * t.getD (2 * k + 1) 0) :=
  C7_single_gate_targets 1 1 [0, 0] 0 [1, 0]

/-- C8: `measure()` hands `numpy.random.choice` the candidate array
`arange(2^n)` (so any returned sample is an integer in `[0, 2^n)`) and the
probability array with `prob[i] = abs(state[i])**2`, and returns the circuit
unchanged: no amplitude and not the qubit count is mutated, so repeated
calls draw from the same fixed distribution. -/
theorem C8_measure_contract (c : Circuit) :
    (Circuit.measure c).2 = c
      ∧ (Circuit.measure c).1.2 = List.range (2 ^ c.number_of_qubits)
      ∧ (∀ x ∈ (Circuit.measure c).1.2, x < 2 ^ c.number_of_qubits)
      ∧ (Circuit.measure c).1.1.length = 2 ^ c.number_of_qubits
      ∧ ∀ i, i < 2 ^ c.number_of_qubits →
          (Circuit.measure c).1.1.getD i 0
            = Complex.abs (c.state.getD i 0) ^ 2 := by
  refine ⟨rfl, rfl, ?_, by simp [Circuit.measure], ?_⟩
  · intro x hx
    exact List.mem_range.1 hx
  · intro i hi
    have hi' : i < ((List.range (2 ^ c.number_of_qubits)).map
        (fun j => Complex.normSq (c.state.getD j 0))).length := by
      simpa using hi
    rw [show (Circuit.measure c).1.1 = (List.range (2 ^ c.number_of_qubits)).map
        (fun j => Complex.normSq (c.state.getD j 0)) from rfl,
      List.getD_eq_getElem _ _ hi', List.getElem_map, List.getElem_range,
      Complex.sq_abs]

theorem C8_witness :
    (Circuit.measure (Circuit.init 1)).2 = Circuit.init 1
      ∧ (Circuit.measure (Circuit.init 1)).1.2 = List.range (2 ^ 1)
      ∧ (∀ x ∈ (Circuit.measure (Circuit.init 1)).1.2, x < 2 ^ 1)
      ∧ (Circuit.measure (Circuit.init 1)).1.1.length = 2 ^ 1
      ∧ ∀ i, i < 2 ^ 1 →
          (Circuit.measure (Circuit.init 1)).1.1.getD i 0
            = Complex.abs ((Circuit.init 1).state.getD i 0) ^ 2 :=
  C8_measure_contract (Circuit.init 1)

/-- C9 counterexample: the claim that out-of-range qubit indices are
rejected with an invalid-argument condition and never silently coerced is
false at a concrete input: on a 2-qubit state, `swap(-1, 0)` succeeds and
acts as `swap(1, 0)` (Python negative indexing coerces the index), mutating
the state, and `swap(7, 7)` succeeds silently with both indices out of
range. -/
theorem C9_counterexample :
    swapPy 2 (-1) 0 [0, 1, 0, 0] = some [0, 0, 1, 0]
      ∧ swapPy 2 7 7 [0, 1, 0, 0] = some [0, 1, 0, 0] :=
  ⟨rfl, rfl⟩

/-- C9 amended: the gate operations perform no qubit-index range validation.
A negative index is silently coerced by Python negative indexing (`swap(-1, q)`
acts on string position `n - 1`); `swap(q, q)` returns successfully without
any range check even for out-of-range `q`; and an index `≥ n` surfaces as an
uncaught `IndexError` from string indexing (raised on the first loop
iteration, before any amplitude is written, modelled as `none`) rather than
as an invalid-argument rejection. -/
theorem C9_no_index_validation (s : List ℂ) :
    swapPy 2 (-1) 0 s = some (swapCore 2 1 0 s)
      ∧ (∀ (n : Nat) (q : Int) (t : List ℂ), swapPy n q q t = some t)
      ∧ swapPy 2 5 0 s = none :=
  ⟨rfl, fun n q t => by simp [swapPy], rfl⟩

/-- C10: re-initialization never fails for any input vector: it replaces the
state wholesale with the caller's vector, performs no validation of the
length against `2 ^ qubit_count` and no normalization check, and leaves the
qubit count unchanged — in particular a vector of mismatched length is
silently accepted, leaving state length and qubit count inconsistent. -/
theorem C10_initVector_unchecked (c : Circuit) (v : List ℂ) :
    (c.initVector v).state = v
      ∧ (c.initVector v).number_of_qubits = c.number_of_qubits
      ∧ ((Circuit.init 2).initVector [1, 0]).state.length = 2
      ∧ ((Circuit.init 2).initVector [1, 0]).number_of_qubits = 2
      ∧ ((Circuit.init 2).initVector [1, 0]).state.length
          ≠ 2 ^ ((Circuit.init 2).initVector [1, 0]).number_of_qubits :=
  ⟨rfl, rfl, rfl, rfl, by decide⟩

end Qton
